import Mathlib

/-!
# Verification of the NIFTY 500 data pipeline

Shallow embedding of the pipeline's three components:

* `fetch_tickers` (fetch_tickers.py): ordered fallback chain over ticker
  sources, suffix normalization;
* `download_ticker` / `download_all` (download_data.py): per-ticker retry
  loop over an abstract provider, batch aggregation with failure bookkeeping,
  report generation with Python division modeled as a fallible operation;
* the `NIFTY500DataCleaner` steps (clean_data.py): `remove_duplicates`,
  `sort_data`, `handle_missing_values`, `validate_data`,
  `add_metadata_columns`, and the quality-score formula of
  `calculate_statistics`.

A pandas dataframe of OHLCV records is embedded as a `List Row`; nullable
cells (NaN) are `Option Int` with pandas comparison semantics (`NaN < x`,
`NaN >= x` are both false) made explicit in `negB`, `geZB`, `optLtB`.
Dates are modeled as days since the Unix epoch.
-/

namespace Nifty

/-- One OHLCV record: one row of the raw/clean dataframe.  Field names match
the dataframe column names of the source.  Nullable cells are `Option Int`. -/
structure Row where
  Date : Nat
  Ticker : String
  Open : Option Int
  High : Option Int
  Low : Option Int
  Close : Option Int
  Volume : Option Int
deriving DecidableEq

instance : Inhabited Row := ⟨⟨0, "", none, none, none, none, none⟩⟩

/-- The four price columns iterated over by `handle_missing_values` and
`validate_data` (`price_columns = ['Open', 'High', 'Low', 'Close']`). -/
inductive Col where
  | Open
  | High
  | Low
  | Close
deriving DecidableEq, Fintype

def getCol : Col → Row → Option Int
  | .Open, r => r.Open
  | .High, r => r.High
  | .Low, r => r.Low
  | .Close, r => r.Close

def setCol : Col → Row → Option Int → Row
  | .Open, r, v => { r with Open := v }
  | .High, r, v => { r with High := v }
  | .Low, r, v => { r with Low := v }
  | .Close, r, v => { r with Close := v }

/-- The column list `['Open', 'High', 'Low', 'Close']`. -/
def price_columns : List Col := [Col.Open, Col.High, Col.Low, Col.Close]

theorem getCol_setCol_same (c : Col) (r : Row) (v : Option Int) :
    getCol c (setCol c r v) = v := by
  cases c <;> rfl

theorem getCol_setCol_other {c c' : Col} (h : c ≠ c') (r : Row) (v : Option Int) :
    getCol c' (setCol c r v) = getCol c' r := by
  cases c <;> cases c' <;> first
    | rfl
    | exact absurd rfl h

theorem ticker_setCol (c : Col) (r : Row) (v : Option Int) :
    (setCol c r v).Ticker = r.Ticker := by
  cases c <;> rfl

theorem date_setCol (c : Col) (r : Row) (v : Option Int) :
    (setCol c r v).Date = r.Date := by
  cases c <;> rfl

theorem volume_setCol (c : Col) (r : Row) (v : Option Int) :
    (setCol c r v).Volume = r.Volume := by
  cases c <;> rfl

/-! ## String order used by `sort_values(['Ticker', 'Date'])`

pandas sorts string columns lexicographically by code point; we embed that
comparison directly on the character lists so that it evaluates inside the
kernel. -/

/-- Lexicographic strict order on character lists, by code point. -/
def charListLt : List Char → List Char → Bool
  | [], [] => false
  | [], _ :: _ => true
  | _ :: _, [] => false
  | a :: as, b :: bs =>
    if a.toNat < b.toNat then true
    else if b.toNat < a.toNat then false
    else charListLt as bs

/-- Strict lexicographic order on strings. -/
def strLt (a b : String) : Bool := charListLt a.data b.data

theorem charListLt_trans : ∀ {a b c : List Char},
    charListLt a b = true → charListLt b c = true → charListLt a c = true
  | [], [], _, h1, _ => by simp [charListLt] at h1
  | [], _ :: _, [], _, h2 => by simp [charListLt] at h2
  | [], _ :: _, _ :: _, _, _ => by simp [charListLt]
  | _ :: _, [], _, h1, _ => by simp [charListLt] at h1
  | _ :: _, _ :: _, [], _, h2 => by simp [charListLt] at h2
  | a :: as, b :: bs, c :: cs, h1, h2 => by
    simp only [charListLt] at h1 h2 ⊢
    split_ifs at h1 h2 ⊢ with g1 g2 g3 g4 g5 g6 <;>
      first
        | rfl
        | omega
        | exact charListLt_trans h1 h2

theorem charListLt_antisymm : ∀ {a b : List Char},
    charListLt a b = false → charListLt b a = false → a = b
  | [], [], _, _ => rfl
  | [], _ :: _, h1, _ => by simp [charListLt] at h1
  | _ :: _, [], _, h2 => by simp [charListLt] at h2
  | a :: as, b :: bs, h1, h2 => by
    simp only [charListLt] at h1 h2
    split_ifs at h1 h2 with g1 g2 <;> try omega
    have hn : a.toNat = b.toNat := by omega
    have hc : a = b := Char.eq_of_val_eq (UInt32.ext hn)
    have : as = bs := charListLt_antisymm h1 h2
    rw [hc, this]

theorem strLt_antisymm {a b : String} (h1 : strLt a b = false)
    (h2 : strLt b a = false) : a = b := by
  cases a with
  | mk da =>
    cases b with
    | mk db =>
      have : da = db := charListLt_antisymm h1 h2
      rw [this]

/-- The sort key relation of `sort_values(['Ticker', 'Date'])`:
sort by ticker, ties broken by date, ascending. -/
def keyLe (a b : Row) : Prop :=
  strLt a.Ticker b.Ticker = true ∨ (a.Ticker = b.Ticker ∧ a.Date ≤ b.Date)

instance : DecidableRel keyLe := fun _ _ => inferInstanceAs (Decidable (_ ∨ _))

instance : IsTotal Row keyLe where
  total a b := by
    cases hab : strLt a.Ticker b.Ticker with
    | true => exact Or.inl (Or.inl hab)
    | false =>
      cases hba : strLt b.Ticker a.Ticker with
      | true => exact Or.inr (Or.inl hba)
      | false =>
        have he : a.Ticker = b.Ticker := strLt_antisymm hab hba
        rcases Nat.le_total a.Date b.Date with h | h
        · exact Or.inl (Or.inr ⟨he, h⟩)
        · exact Or.inr (Or.inr ⟨he.symm, h⟩)

instance : IsTrans Row keyLe where
  trans a b c hab hbc := by
    rcases hab with h1 | ⟨e1, d1⟩
    · rcases hbc with h2 | ⟨e2, _⟩
      · exact Or.inl (charListLt_trans h1 h2)
      · exact Or.inl (by rw [← e2]; exact h1)
    · rcases hbc with h2 | ⟨e2, d2⟩
      · exact Or.inl (by rw [e1]; exact h2)
      · exact Or.inr ⟨e1.trans e2, Nat.le_trans d1 d2⟩

/-- `df.sort_values(['Ticker', 'Date'])`: stable sort by (ticker, date). -/
def sortTD (df : List Row) : List Row := List.insertionSort keyLe df

/-! ## clean_data.py: the cleaning steps -/

/-- Does `r'` have the same (Date, Ticker) key as `r`?  The deduplication
subset `['Date', 'Ticker']`. -/
def sameKey (r r' : Row) : Bool :=
  decide (r'.Date = r.Date) && decide (r'.Ticker = r.Ticker)

/-- `remove_duplicates`: `df.drop_duplicates(subset=['Date', 'Ticker'],
keep='last')` — a row is kept iff no later row carries the same
(Date, Ticker) key; relative order of kept rows is preserved. -/
def remove_duplicates : List Row → List Row
  | [] => []
  | r :: rs =>
    if rs.any (sameKey r) then remove_duplicates rs
    else r :: remove_duplicates rs

/-- `sort_data`: `df.sort_values(['Ticker', 'Date']).reset_index(drop=True)`. -/
def sort_data (df : List Row) : List Row := sortTD df

/-- One pass of `df.groupby('Ticker')[col].ffill()` over a ticker-contiguous
(sorted) frame: carry the last seen value of column `c` forward, resetting
the carry whenever the ticker changes (a new group starts). -/
def ffillRun (c : Col) : Option String → Option Int → List Row → List Row
  | _, _, [] => []
  | t?, carry, r :: rs =>
    let carry' := if t? = some r.Ticker then carry else none
    let v := match getCol c r with
      | some x => some x
      | none => carry'
    setCol c r v :: ffillRun c (some r.Ticker) v rs

/-- The `for col in price_columns` loop of `handle_missing_values`:
forward-fill each of Open, High, Low, Close within ticker groups. -/
def fillPrices (df : List Row) : List Row :=
  price_columns.foldl (fun acc c => ffillRun c none none acc) df

/-- `df['Volume'] = df['Volume'].fillna(0)`. -/
def fillVolumeRow (r : Row) : Row := { r with Volume := some (r.Volume.getD 0) }

/-- `handle_missing_values`: sort by (Ticker, Date), forward-fill the four
price columns within each ticker, fill null Volume with 0, then
`dropna(subset=['Close'])`. -/
def handle_missing_values (df : List Row) : List Row :=
  (((sortTD df) |> fillPrices).map fillVolumeRow).filter fun r => r.Close.isSome

/-- pandas `x < 0` on a nullable cell: false on NaN. -/
def negB : Option Int → Bool
  | some v => decide (v < 0)
  | none => false

/-- pandas `x >= 0` on a nullable cell: false on NaN. -/
def geZB : Option Int → Bool
  | some v => decide (0 ≤ v)
  | none => false

/-- pandas `x < y` on nullable cells: false if either side is NaN. -/
def optLtB : Option Int → Option Int → Bool
  | some x, some y => decide (x < y)
  | _, _ => false

/-- One iteration of the negative-price check of `validate_data`: count the
strictly negative values in column `c`; if any, keep only the rows whose
value in `c` satisfies `>= 0` (which in pandas also discards rows that are
null in `c`). -/
def filterNegStep (df : List Row) (c : Col) : List Row :=
  if 0 < df.countP (fun r => negB (getCol c r)) then
    df.filter fun r => geZB (getCol c r)
  else df

/-- The `for col in price_cols` sweep of `validate_data`, in source order
Open, High, Low, Close. -/
def negPriceFilter (df : List Row) : List Row :=
  price_columns.foldl filterNegStep df

/-- The volume clamp `df.loc[df['Volume'] < 0, 'Volume'] = 0`, pointwise. -/
def clampVolume (r : Row) : Row :=
  if negB r.Volume then { r with Volume := some 0 } else r

/-- The High/Low repair: rows with `High < Low` get the two values swapped. -/
def swapHighLow (r : Row) : Row :=
  if optLtB r.High r.Low then { r with High := r.Low, Low := r.High } else r

/-- `validate_data`: remove negative prices column by column, clamp negative
volume to zero (only when some negative volume exists), swap High/Low where
`High < Low` (only when some such row exists), and count — without touching —
the rows whose Close lies outside [Low, High]. -/
def validate_data (df : List Row) : List Row :=
  let df := negPriceFilter df
  let df := if 0 < df.countP (fun r => negB r.Volume) then df.map clampVolume else df
  let df := if 0 < df.countP (fun r => optLtB r.High r.Low) then df.map swapHighLow else df
  let outside_range := df.countP fun r => optLtB r.High r.Close || optLtB r.Close r.Low
  let _ := outside_range
  df

/-- Calendar accessors of `df['Date'].dt`; dates are days since the Unix
epoch (a Thursday), so the weekday is `(d + 3) % 7` under pandas' Monday=0
convention.  Year and month use a flat-year approximation: no claim in this
development depends on their values, only on their being functions of the
date. -/
def dt_dayofweek (d : Nat) : Nat := (d + 3) % 7

def dt_year (d : Nat) : Nat := 1970 + d / 365

def dt_month (d : Nat) : Nat := d % 365 / 31 + 1

/-- A row of the processed master dataset: the OHLCV record plus the
metadata columns added by `add_metadata_columns`. -/
structure MetaRow where
  Date : Nat
  Ticker : String
  Open : Option Int
  High : Option Int
  Low : Option Int
  Close : Option Int
  Volume : Option Int
  DayOfWeek : Nat
  Year : Nat
  Month : Nat
  TransactionCostBps : ℚ
deriving DecidableEq

/-- `add_metadata_columns`: derive DayOfWeek, Year, Month from Date and
attach the constant `TransactionCostBps = 3.0`. -/
def add_metadata_columns (df : List Row) : List MetaRow :=
  df.map fun r =>
    { Date := r.Date, Ticker := r.Ticker, Open := r.Open, High := r.High,
      Low := r.Low, Close := r.Close, Volume := r.Volume,
      DayOfWeek := dt_dayofweek r.Date, Year := dt_year r.Date,
      Month := dt_month r.Date, TransactionCostBps := 3 }

/-- The quality-score expression of `calculate_statistics` (before the
2-decimal rounding): `retention_rate * 0.5 + completeness * 0.5`, scaled to
0–100, with `retention_rate = final_rows / max(initial_rows, 1)` and
`completeness = 1 - missing_values_filled / max(initial_rows, 1)`. -/
def quality_score (initial_rows final_rows missing_values_filled : Nat) : ℚ :=
  let retention_rate : ℚ := (final_rows : ℚ) / (max initial_rows 1 : Nat)
  let completeness : ℚ := 1 - (missing_values_filled : ℚ) / (max initial_rows 1 : Nat)
  (retention_rate * 0.5 + completeness * 0.5) * 100

/-- `round(quality_score, 2)`: round to two decimal places. -/
def round2 (q : ℚ) : ℚ := (round (q * 100) : ℤ) / 100

/-- The value stored in `quality_metrics['data_quality_score']`. -/
def data_quality_score (initial_rows final_rows missing_values_filled : Nat) : ℚ :=
  round2 (quality_score initial_rows final_rows missing_values_filled)

/-! ## download_data.py: the bulk downloader

The yfinance call is the external market-data provider: we model it as a
function `resp : String → Nat → FetchResult` giving, for each ticker and
each attempt number, either an exception (`err`) or a returned history
frame (`ok bars`, possibly empty). -/

/-- A bar of provider history before the ticker column is attached. -/
structure Bar where
  Date : Nat
  Open : Option Int
  High : Option Int
  Low : Option Int
  Close : Option Int
  Volume : Option Int
deriving DecidableEq

/-- Outcome of one `stock.history(...)` call: an exception, or a frame. -/
inductive FetchResult where
  | err
  | ok (bars : List Bar)
deriving DecidableEq

/-- `ticker.replace('.NS', '')`: drop every (non-overlapping, left-to-right)
occurrence of the provider suffix from the identifier. -/
def replaceNSAux : List Char → List Char
  | '.' :: 'N' :: 'S' :: rest => replaceNSAux rest
  | c :: rest => c :: replaceNSAux rest
  | [] => []

def stripNS (s : String) : String := ⟨replaceNSAux s.data⟩

/-- `df['Ticker'] = ticker.replace('.NS', '')` plus the column reordering:
tag every bar of the frame with the suffix-free ticker. -/
def tagFrame (ticker : String) (bars : List Bar) : List Row :=
  bars.map fun b =>
    { Date := b.Date, Ticker := stripNS ticker, Open := b.Open, High := b.High,
      Low := b.Low, Close := b.Close, Volume := b.Volume }

/-- The attempt loop of `download_ticker`, starting at attempt number `a`
with `fuel` attempts left: an empty frame returns `none` immediately (no
retry); an exception retries until the attempts are exhausted. -/
def downloadGo (resp : String → Nat → FetchResult) (ticker : String) :
    Nat → Nat → Option (List Row)
  | _, 0 => none
  | a, fuel + 1 =>
    match resp ticker a with
    | .ok bars =>
      if bars.isEmpty then none
      else some (tagFrame ticker bars)
    | .err => downloadGo resp ticker (a + 1) fuel

/-- `download_ticker`: up to `max_retries` attempts for one ticker;
`none` models the Python `return None`. -/
def download_ticker (resp : String → Nat → FetchResult) (max_retries : Nat)
    (ticker : String) : Option (List Row) :=
  downloadGo resp ticker 0 max_retries

/-- The statistics accumulator of the downloader (`self.stats`), without the
wall-clock timestamps. -/
structure DownloadStats where
  total_tickers : Nat
  successful : Nat
  failed : Nat
  failed_tickers : List String
deriving DecidableEq

/-- One iteration of the batch loop of `download_all`: a non-`None`,
non-empty frame is appended and counted a success, anything else increments
`failed` and records the ticker. -/
def dlStep (resp : String → Nat → FetchResult) (max_retries : Nat)
    (acc : List (List Row) × DownloadStats) (ticker : String) :
    List (List Row) × DownloadStats :=
  match download_ticker resp max_retries ticker with
  | some df =>
    if df.isEmpty then
      (acc.1, { acc.2 with
                failed := acc.2.failed + 1
                failed_tickers := acc.2.failed_tickers ++ [ticker] })
    else
      (acc.1 ++ [df], { acc.2 with successful := acc.2.successful + 1 })
  | none =>
    (acc.1, { acc.2 with
              failed := acc.2.failed + 1
              failed_tickers := acc.2.failed_tickers ++ [ticker] })

/-- `download_all`: set `total_tickers`, run the sequential batch loop, and
concatenate the successful frames (an empty dataframe when there were no
successes).  Returns the combined dataset with the final statistics. -/
def download_all (resp : String → Nat → FetchResult) (max_retries : Nat)
    (tickers : List String) : List Row × DownloadStats :=
  let init : List (List Row) × DownloadStats :=
    ([], { total_tickers := tickers.length, successful := 0, failed := 0,
           failed_tickers := [] })
  let res := tickers.foldl (dlStep resp max_retries) init
  (res.1.flatten, res.2)

/-- Python `a / b`: raises `ZeroDivisionError` when `b = 0`. -/
def pyDiv (a b : ℚ) : Except String ℚ :=
  if b = 0 then .error "ZeroDivisionError" else .ok (a / b)

/-- The JSON summary written by `save_download_report` (dates, duration and
file paths omitted). -/
structure DownloadSummary where
  total_tickers : Nat
  successful_downloads : Nat
  failed_downloads : Nat
  success_rate : ℚ
  failed_tickers : List String
deriving DecidableEq

/-- `save_download_report`: builds the summary dict, whose `success_rate`
field computes `successful / total_tickers * 100` with no guard for
`total_tickers = 0`. -/
def save_download_report (stats : DownloadStats) : Except String DownloadSummary := do
  let rate ← pyDiv (stats.successful : ℚ) (stats.total_tickers : ℚ)
  pure { total_tickers := stats.total_tickers,
         successful_downloads := stats.successful,
         failed_downloads := stats.failed,
         success_rate := rate * 100,
         failed_tickers := stats.failed_tickers }

/-- `print_summary`: logs `successful / total_tickers * 100`, again with no
guard for `total_tickers = 0`; we model the printed rate. -/
def print_summary (stats : DownloadStats) : Except String ℚ := do
  let rate ← pyDiv (stats.successful : ℚ) (stats.total_tickers : ℚ)
  pure (rate * 100)

/-! ## fetch_tickers.py: the ticker resolver

The two network sources are modeled as parameters holding the raw symbol
lists they produced (`[]` models both an empty parse and a caught
exception, exactly the two ways the Python functions return `[]`). -/

/-- The static fallback list of `use_hardcoded_list`, verbatim. -/
def use_hardcoded_list : List String :=
  ["RELIANCE", "TCS", "HDFCBANK", "INFY", "ICICIBANK", "HINDUNILVR", "ITC",
   "SBIN", "BHARTIARTL", "BAJFINANCE", "KOTAKBANK", "LT", "ASIANPAINT",
   "HCLTECH", "AXISBANK", "MARUTI", "SUNPHARMA", "TITAN", "ULTRACEMCO",
   "NESTLEIND", "WIPRO", "ADANIENT", "ONGC", "NTPC", "POWERGRID", "TATAMOTORS",
   "BAJAJFINSV", "JSWSTEEL", "M&M", "TECHM", "INDUSINDBK", "TATASTEEL",
   "ADANIPORTS", "HINDALCO", "COALINDIA", "GRASIM", "BRITANNIA", "SHREECEM",
   "EICHERMOT", "CIPLA", "DRREDDY", "DIVISLAB", "APOLLOHOSP", "BPCL",
   "HEROMOTOCO", "SBILIFE", "HDFCLIFE", "BAJAJ-AUTO", "TATACONSUM",
   "DABUR", "GODREJCP", "MARICO", "PIDILITIND", "BERGEPAINT", "COLPAL",
   "HAVELLS", "VOLTAS", "WHIRLPOOL", "VBL", "MCDOWELL-N", "JUBLFOOD",
   "PAGEIND", "DIXON", "POLYCAB", "CROMPTON", "VGUARD", "BATAINDIA",
   "RELAXO", "TRENT", "ABFRL", "VEDL", "SAIL", "NMDC", "MOIL",
   "ACC", "AMBUJACEM", "RAMCOCEM", "JKCEMENT", "HEIDELBERG", "BANKBARODA",
   "PNB", "CANBK", "UNIONBANK", "IDFCFIRSTB", "FEDERALBNK", "RBLBANK",
   "BANDHANBNK", "PFC", "RECLTD", "IRCTC", "IRFC", "CONCOR", "GMRINFRA",
   "ADANIGREEN", "ADANITRANS", "TATAPOWER", "TORNTPOWER", "CESC", "NHPC"]

/-- `fetch_tickers`: ordered fallback NSE → Wikipedia → hardcoded list,
raising `ValueError` only if the final list is empty, otherwise formatting
every symbol with the `.NS` suffix. -/
def fetch_tickers (nse wiki : List String) : Except String (List String) :=
  let tickers := nse
  let tickers := if tickers.isEmpty then wiki else tickers
  let tickers := if tickers.isEmpty then use_hardcoded_list else tickers
  if tickers.isEmpty then
    .error "Failed to fetch NIFTY 500 tickers from all sources"
  else
    .ok (tickers.map fun t => t ++ ".NS")

/-! ## Forward-fill characterization (claim C1)

`priorAll c t l` reads a *reversed* prefix of rows (most recent first) and
returns the most recent non-null value of column `c` among the rows of
ticker `t`; `priorRun` is the variant that stops scanning at the first row
of another ticker (the two agree on ticker-contiguous data, see below);
`priorRunC` additionally threads the incoming carry of `ffillRun`. -/

def priorRunC (c : Col) (t : String) (t? : Option String) (carry : Option Int) :
    List Row → Option Int
  | [] => if t? = some t then carry else none
  | r :: rs =>
    if r.Ticker = t then
      match getCol c r with
      | some v => some v
      | none => priorRunC c t t? carry rs
    else none

def priorRun (c : Col) (t : String) : List Row → Option Int
  | [] => none
  | r :: rs =>
    if r.Ticker = t then
      match getCol c r with
      | some v => some v
      | none => priorRun c t rs
    else none

/-- Most recent earlier non-null value of column `c` within ticker `t`'s own
series, scanning a reversed prefix of the frame. -/
def priorAll (c : Col) (t : String) : List Row → Option Int
  | [] => none
  | r :: rs =>
    if r.Ticker = t then
      match getCol c r with
      | some v => some v
      | none => priorAll c t rs
    else priorAll c t rs

/-- The value `ffillRun` writes into the head row, given the incoming state. -/
def fillVal (c : Col) (t? : Option String) (carry : Option Int) (r : Row) :
    Option Int :=
  match getCol c r with
  | some x => some x
  | none => if t? = some r.Ticker then carry else none

theorem priorRunC_none (c : Col) (t : String) (carry : Option Int) :
    ∀ l : List Row, priorRunC c t none carry l = priorRun c t l
  | [] => by simp [priorRunC, priorRun]
  | r :: rs => by
    simp only [priorRunC, priorRun]
    cases hg : getCol c r <;> simp [hg, priorRunC_none c t carry rs]

theorem priorRunC_append (c : Col) (t : String) (t? : Option String)
    (carry : Option Int) (r : Row) :
    ∀ xs : List Row, priorRunC c t t? carry (xs ++ [r]) =
      priorRunC c t (some r.Ticker) (fillVal c t? carry r) xs
  | [] => by
    simp only [List.nil_append, priorRunC, fillVal]
    by_cases h : r.Ticker = t
    · cases hg : getCol c r <;> simp [h, hg, priorRunC]
    · have : ¬ some r.Ticker = some t := by simpa using h
      simp [h, this]
  | x :: xs => by
    simp only [List.cons_append, priorRunC]
    cases hg : getCol c x <;>
      simp [hg, priorRunC_append c t t? carry r xs]

theorem ffillRun_length (c : Col) :
    ∀ (t? : Option String) (carry : Option Int) (l : List Row),
      (ffillRun c t? carry l).length = l.length
  | _, _, [] => rfl
  | t?, carry, r :: rs => by
    simp [ffillRun, ffillRun_length c _ _ rs]

theorem ffillRun_map {β : Type} (c : Col) (f : Row → β)
    (hf : ∀ (r : Row) (v : Option Int), f (setCol c r v) = f r) :
    ∀ (t? : Option String) (carry : Option Int) (l : List Row),
      (ffillRun c t? carry l).map f = l.map f
  | _, _, [] => rfl
  | t?, carry, r :: rs => by
    simp [ffillRun, hf, ffillRun_map c f hf _ _ rs]

/-- Positional characterization of one forward-fill pass: the value of
column `c` at position `i` is the row's own value when present, otherwise
the value carried from the scan of the earlier rows. -/
theorem ffillRun_getD (c : Col) :
    ∀ (l : List Row) (t? : Option String) (carry : Option Int) (i : Nat),
      i < l.length →
      (ffillRun c t? carry l).getD i default =
        setCol c (l.getD i default)
          (priorRunC c ((l.getD i default).Ticker) t? carry
            ((l.take (i + 1)).reverse))
  | [], _, _, i, h => by simp at h
  | r :: rs, t?, carry, 0, _ => by
    simp only [ffillRun, List.getD_cons_zero, List.take_succ_cons,
      List.take_zero, List.reverse_cons, List.reverse_nil, List.nil_append]
    by_cases h : r.Ticker = r.Ticker
    · cases hg : getCol c r <;> simp [priorRunC, hg]
    · exact absurd rfl h
  | r :: rs, t?, carry, i + 1, h => by
    have hi : i < rs.length := by simpa using h
    simp only [ffillRun, List.getD_cons_succ]
    rw [ffillRun_getD c rs (some r.Ticker) _ i hi]
    have hpr : (rs.take (i + 1)).reverse ++ [r] =
        ((r :: rs).take (i + 1 + 1)).reverse := by
      simp [List.take_succ_cons, List.reverse_cons]
    rw [← hpr, priorRunC_append]
    rfl

/-- `(r.Ticker, getCol c r)`: the data `priorRun`/`priorAll` depend on. -/
def restrict (c : Col) (r : Row) : String × Option Int := (r.Ticker, getCol c r)

theorem priorRun_congr (c : Col) (t : String) :
    ∀ {l l' : List Row}, l.map (restrict c) = l'.map (restrict c) →
      priorRun c t l = priorRun c t l'
  | [], [], _ => rfl
  | [], _ :: _, h => by simp at h
  | _ :: _, [], h => by simp at h
  | x :: xs, y :: ys, h => by
    simp only [List.map_cons, List.cons.injEq, restrict, Prod.mk.injEq] at h
    obtain ⟨⟨ht, hg⟩, htl⟩ := h
    simp only [priorRun, ht, hg]
    cases hgy : getCol c y <;> simp [hgy, priorRun_congr c t htl]

theorem priorRunC_congr (c : Col) (t : String) (t? : Option String)
    (carry : Option Int) :
    ∀ {l l' : List Row}, l.map (restrict c) = l'.map (restrict c) →
      priorRunC c t t? carry l = priorRunC c t t? carry l'
  | [], [], _ => rfl
  | [], _ :: _, h => by simp at h
  | _ :: _, [], h => by simp at h
  | x :: xs, y :: ys, h => by
    simp only [List.map_cons, List.cons.injEq, restrict, Prod.mk.injEq] at h
    obtain ⟨⟨ht, hg⟩, htl⟩ := h
    simp only [priorRunC, ht, hg]
    cases hgy : getCol c y <;> simp [hgy, priorRunC_congr c t t? carry htl]

theorem restrict_setCol_other {c c' : Col} (h : c ≠ c') (r : Row)
    (v : Option Int) : restrict c' (setCol c r v) = restrict c' r := by
  simp [restrict, ticker_setCol, getCol_setCol_other h]

theorem map_eq_getD_eq {β : Type} {f : Row → β} :
    ∀ {l l' : List Row}, l.map f = l'.map f → ∀ i : Nat,
      i < l.length → f (l.getD i default) = f (l'.getD i default)
  | [], [], _, i, h => by simp at h
  | [], _ :: _, h, _, _ => by simp at h
  | _ :: _, [], h, _, _ => by simp at h
  | x :: xs, y :: ys, h, 0, _ => by
    simp only [List.map_cons, List.cons.injEq] at h
    simpa using h.1
  | x :: xs, y :: ys, h, i + 1, hi => by
    simp only [List.map_cons, List.cons.injEq] at h
    simpa using map_eq_getD_eq h.2 i (by simpa using hi)

theorem restrict_map_ffill {c c' : Col} (h : c ≠ c') (t? : Option String)
    (carry : Option Int) (l : List Row) :
    (ffillRun c t? carry l).map (restrict c') = l.map (restrict c') :=
  ffillRun_map c (restrict c') (fun r v => restrict_setCol_other h r v) t? carry l

theorem fillPrices_def (df : List Row) : fillPrices df =
    ffillRun Col.Close none none (ffillRun Col.Low none none
      (ffillRun Col.High none none (ffillRun Col.Open none none df))) := rfl

theorem fillPrices_length (df : List Row) :
    (fillPrices df).length = df.length := by
  rw [fillPrices_def, ffillRun_length, ffillRun_length, ffillRun_length,
    ffillRun_length]

theorem fillPrices_map {β : Type} (f : Row → β)
    (hf : ∀ (c : Col) (r : Row) (v : Option Int), f (setCol c r v) = f r)
    (df : List Row) : (fillPrices df).map f = df.map f := by
  rw [fillPrices_def, ffillRun_map _ f (hf _), ffillRun_map _ f (hf _),
    ffillRun_map _ f (hf _), ffillRun_map _ f (hf _)]

/-- One pass in place: the filled value of the pass's own column, read off
through `priorRun`. -/
theorem getCol_stage (c : Col) (l : List Row) (i : Nat) (hi : i < l.length) :
    getCol c ((ffillRun c none none l).getD i default) =
      priorRun c ((l.getD i default).Ticker) ((l.take (i + 1)).reverse) := by
  rw [ffillRun_getD c l none none i hi, getCol_setCol_same, priorRunC_none]

theorem getCol_transport {c : Col} {l l' : List Row}
    (hm : l.map (restrict c) = l'.map (restrict c)) (i : Nat)
    (hi : i < l.length) :
    getCol c (l.getD i default) = getCol c (l'.getD i default) ∧
      (l.getD i default).Ticker = (l'.getD i default).Ticker := by
  have h := map_eq_getD_eq hm i hi
  exact ⟨congrArg Prod.snd h, congrArg Prod.fst h⟩

theorem priorRun_transport (c : Col) (t : String) {l l' : List Row}
    (hm : l.map (restrict c) = l'.map (restrict c)) (i : Nat) :
    priorRun c t ((l.take i).reverse) = priorRun c t ((l'.take i).reverse) := by
  apply priorRun_congr
  simp only [List.map_reverse, List.map_take, hm]

/-- Positional characterization of the four-column forward-fill loop: the
value of column `c` at position `i` is the most recent non-null value of
`c` scanning backwards from the row itself, within the row's ticker run. -/
theorem fillPrices_getCol (c : Col) (df : List Row) (i : Nat)
    (h : i < df.length) :
    getCol c ((fillPrices df).getD i default) =
      priorRun c ((df.getD i default).Ticker) ((df.take (i + 1)).reverse) := by
  have e1 : (ffillRun Col.Open none none df).length = df.length :=
    ffillRun_length ..
  have e2 : (ffillRun Col.High none none
      (ffillRun Col.Open none none df)).length = df.length := by
    rw [ffillRun_length, e1]
  have e3 : (ffillRun Col.Low none none (ffillRun Col.High none none
      (ffillRun Col.Open none none df))).length = df.length := by
    rw [ffillRun_length, e2]
  have e4 : (fillPrices df).length = df.length := fillPrices_length df
  cases c with
  | Open =>
    have m2 := @restrict_map_ffill Col.High Col.Open (by decide)
      none none (ffillRun Col.Open none none df)
    have m3 := @restrict_map_ffill Col.Low Col.Open (by decide)
      none none (ffillRun Col.High none none (ffillRun Col.Open none none df))
    have m4 := @restrict_map_ffill Col.Close Col.Open (by decide)
      none none (ffillRun Col.Low none none (ffillRun Col.High none none
        (ffillRun Col.Open none none df)))
    have hm : (fillPrices df).map (restrict Col.Open) =
        (ffillRun Col.Open none none df).map (restrict Col.Open) := by
      rw [fillPrices_def, m4, m3, m2]
    have := (getCol_transport hm i (by rw [e4]; exact h)).1
    rw [this, getCol_stage Col.Open df i h]
  | High =>
    have m1 := @restrict_map_ffill Col.Open Col.High (by decide)
      none none df
    have m3 := @restrict_map_ffill Col.Low Col.High (by decide)
      none none (ffillRun Col.High none none (ffillRun Col.Open none none df))
    have m4 := @restrict_map_ffill Col.Close Col.High (by decide)
      none none (ffillRun Col.Low none none (ffillRun Col.High none none
        (ffillRun Col.Open none none df)))
    have hm : (fillPrices df).map (restrict Col.High) =
        (ffillRun Col.High none none (ffillRun Col.Open none none df)).map
          (restrict Col.High) := by
      rw [fillPrices_def, m4, m3]
    have hstep := getCol_stage Col.High (ffillRun Col.Open none none df) i
      (by rw [e1]; exact h)
    have htick := (getCol_transport m1 i (by rw [e1]; exact h)).2
    have hpre := priorRun_transport Col.High ((df.getD i default).Ticker)
      m1 (i + 1)
    have hout := (getCol_transport hm i (by rw [e4]; exact h)).1
    rw [hout, hstep, htick, hpre]
  | Low =>
    have m1 := @restrict_map_ffill Col.Open Col.Low (by decide)
      none none df
    have m2 := @restrict_map_ffill Col.High Col.Low (by decide)
      none none (ffillRun Col.Open none none df)
    have m4 := @restrict_map_ffill Col.Close Col.Low (by decide)
      none none (ffillRun Col.Low none none (ffillRun Col.High none none
        (ffillRun Col.Open none none df)))
    have hm12 : (ffillRun Col.High none none
        (ffillRun Col.Open none none df)).map (restrict Col.Low) =
          df.map (restrict Col.Low) := by rw [m2, m1]
    have hm : (fillPrices df).map (restrict Col.Low) =
        (ffillRun Col.Low none none (ffillRun Col.High none none
          (ffillRun Col.Open none none df))).map (restrict Col.Low) := by
      rw [fillPrices_def, m4]
    have hstep := getCol_stage Col.Low (ffillRun Col.High none none
      (ffillRun Col.Open none none df)) i (by rw [e2]; exact h)
    have htick := (getCol_transport hm12 i (by rw [e2]; exact h)).2
    have hpre := priorRun_transport Col.Low ((df.getD i default).Ticker)
      hm12 (i + 1)
    have hout := (getCol_transport hm i (by rw [e4]; exact h)).1
    rw [hout, hstep, htick, hpre]
  | Close =>
    have m1 := @restrict_map_ffill Col.Open Col.Close (by decide)
      none none df
    have m2 := @restrict_map_ffill Col.High Col.Close (by decide)
      none none (ffillRun Col.Open none none df)
    have m3 := @restrict_map_ffill Col.Low Col.Close (by decide)
      none none (ffillRun Col.High none none (ffillRun Col.Open none none df))
    have hm123 : (ffillRun Col.Low none none (ffillRun Col.High none none
        (ffillRun Col.Open none none df))).map (restrict Col.Close) =
          df.map (restrict Col.Close) := by rw [m3, m2, m1]
    have hstep := getCol_stage Col.Close (ffillRun Col.Low none none
      (ffillRun Col.High none none (ffillRun Col.Open none none df))) i
      (by rw [e3]; exact h)
    have htick := (getCol_transport hm123 i (by rw [e3]; exact h)).2
    have hpre := priorRun_transport Col.Close ((df.getD i default).Ticker)
      hm123 (i + 1)
    rw [fillPrices_def, hstep, htick, hpre]

/-! ### `priorRun` and `priorAll` agree on sorted prefixes -/

theorem charListLt_irrefl : ∀ a : List Char, charListLt a a = false
  | [] => rfl
  | a :: as => by
    simp only [charListLt, Nat.lt_irrefl, if_false]
    exact charListLt_irrefl as

theorem priorRun_eq_none (c : Col) (t : String) :
    ∀ {l : List Row}, (∀ x ∈ l, x.Ticker ≠ t) → priorRun c t l = none
  | [], _ => rfl
  | r :: rs, h => by
    simp [priorRun, h r (List.mem_cons_self r rs)]

theorem priorAll_eq_none (c : Col) (t : String) :
    ∀ {l : List Row}, (∀ x ∈ l, x.Ticker ≠ t) → priorAll c t l = none
  | [], _ => rfl
  | r :: rs, h => by
    simp only [priorAll, h r (List.mem_cons_self r rs), if_false]
    exact priorAll_eq_none c t fun x hx => h x (List.mem_cons_of_mem r hx)

theorem priorRun_eq_priorAll_of_split (c : Col) (t : String) :
    ∀ (l₁ l₂ : List Row), (∀ x ∈ l₁, x.Ticker = t) →
      (∀ x ∈ l₂, x.Ticker ≠ t) →
      priorRun c t (l₁ ++ l₂) = priorAll c t (l₁ ++ l₂)
  | [], l₂, _, h₂ => by
    rw [List.nil_append, priorRun_eq_none c t h₂, priorAll_eq_none c t h₂]
  | x :: l₁, l₂, h₁, h₂ => by
    have hx : x.Ticker = t := h₁ x (List.mem_cons_self x l₁)
    have ih := priorRun_eq_priorAll_of_split c t l₁ l₂
      (fun y hy => h₁ y (List.mem_cons_of_mem x hy)) h₂
    simp only [List.cons_append, priorRun, priorAll, hx, if_true]
    cases hg : getCol c x <;> simp [hg, ih]

/-- In a list that is descending under the sort key and bounded above by
ticker `t`, the rows of ticker `t` form a prefix. -/
theorem exists_ticker_split (t : String) :
    ∀ {l : List Row}, (∀ x ∈ l, strLt x.Ticker t = true ∨ x.Ticker = t) →
      List.Pairwise (fun a b => keyLe b a) l →
      ∃ l₁ l₂, l = l₁ ++ l₂ ∧ (∀ x ∈ l₁, x.Ticker = t) ∧
        (∀ x ∈ l₂, x.Ticker ≠ t)
  | [], _, _ => ⟨[], [], rfl, by simp, by simp⟩
  | x :: xs, hA, hB => by
    have hA' : ∀ y ∈ xs, strLt y.Ticker t = true ∨ y.Ticker = t :=
      fun y hy => hA y (List.mem_cons_of_mem x hy)
    have hB' : List.Pairwise (fun a b => keyLe b a) xs := hB.of_cons
    by_cases hx : x.Ticker = t
    · obtain ⟨l₁, l₂, hsplit, h₁, h₂⟩ := exists_ticker_split t hA' hB'
      exact ⟨x :: l₁, l₂, by rw [hsplit, List.cons_append],
        fun y hy => by
          rcases List.mem_cons.mp hy with h | h
          · rw [h]; exact hx
          · exact h₁ y h,
        h₂⟩
    · refine ⟨[], x :: xs, rfl, by simp, fun z hz => ?_⟩
      rcases List.mem_cons.mp hz with h | h
      · rw [h]; exact hx
      · intro hzt
        have hk : keyLe z x := (List.pairwise_cons.mp hB).1 z h
        rcases hk with hlt | ⟨he, _⟩
        · rw [hzt] at hlt
          rcases hA x (List.mem_cons_self x xs) with hlt' | he'
          · have h2 := charListLt_trans hlt' hlt
            rw [charListLt_irrefl] at h2
            exact Bool.false_ne_true h2
          · exact hx he'
        · exact hx (hzt ▸ he.symm)

/-- On a frame sorted by (Ticker, Date), scanning backwards from position
`i` and stopping at the first ticker change (`priorRun`) is the same as
scanning all earlier rows of the same ticker (`priorAll`). -/
theorem priorRun_eq_priorAll_sorted (c : Col) {s : List Row}
    (hs : List.Sorted keyLe s) (i : Nat) (h : i < s.length) :
    priorRun c ((s.getD i default).Ticker) ((s.take i).reverse) =
      priorAll c ((s.getD i default).Ticker) ((s.take i).reverse) := by
  have hgd : s.getD i default = s[i] := List.getD_eq_getElem s default h
  have hp : List.Pairwise keyLe (s.take i ++ s.drop i) := by
    rw [List.take_append_drop]; exact hs
  obtain ⟨hp₁, -, hcross⟩ := List.pairwise_append.mp hp
  have hmem : s[i] ∈ s.drop i := by
    rw [List.drop_eq_getElem_cons h]
    exact List.mem_cons_self _ _
  have hA : ∀ x ∈ (s.take i).reverse,
      strLt x.Ticker (s.getD i default).Ticker = true ∨
        x.Ticker = (s.getD i default).Ticker := by
    intro x hx
    have hk : keyLe x s[i] := hcross x (List.mem_reverse.mp hx) s[i] hmem
    rw [hgd]
    rcases hk with h1 | ⟨h1, _⟩
    · exact Or.inl h1
    · exact Or.inr h1
  have hB : List.Pairwise (fun a b => keyLe b a) ((s.take i).reverse) :=
    List.pairwise_reverse.mpr hp₁
  obtain ⟨l₁, l₂, hsplit, h₁, h₂⟩ :=
    exists_ticker_split (s.getD i default).Ticker hA hB
  rw [hsplit]
  exact priorRun_eq_priorAll_of_split c _ l₁ l₂ h₁ h₂

/-- `priorAll` provenance: a filled value always is the value of some row of
the scanned (earlier) prefix carrying the same ticker. -/
theorem priorAll_mem (c : Col) (t : String) :
    ∀ {l : List Row} {v : Int}, priorAll c t l = some v →
      ∃ x ∈ l, x.Ticker = t ∧ getCol c x = some v
  | [], v, h => by simp [priorAll] at h
  | r :: rs, v, h => by
    by_cases ht : r.Ticker = t
    · cases hg : getCol c r with
      | some w =>
        rw [priorAll, if_pos ht, hg] at h
        exact ⟨r, List.mem_cons_self r rs, ht, hg.trans h⟩
      | none =>
        rw [priorAll, if_pos ht, hg] at h
        obtain ⟨x, hx, hxt, hxv⟩ := priorAll_mem c t h
        exact ⟨x, List.mem_cons_of_mem r hx, hxt, hxv⟩
    · rw [priorAll, if_neg ht] at h
      obtain ⟨x, hx, hxt, hxv⟩ := priorAll_mem c t h
      exact ⟨x, List.mem_cons_of_mem r hx, hxt, hxv⟩

theorem getD_map_of_lt (f : Row → Row) {l : List Row} {i : Nat}
    (h : i < l.length) : (l.map f).getD i default = f (l.getD i default) := by
  rw [List.getD_eq_getElem _ _ (by simpa using h), List.getD_eq_getElem _ _ h,
    List.getElem_map]

theorem getCol_fillVolumeRow (c : Col) (r : Row) :
    getCol c (fillVolumeRow r) = getCol c r := by
  cases c <;> rfl

/-- The sorted frame, then the price forward-fill, then the volume fill:
everything of `handle_missing_values` before the `dropna`. -/
def filledFrame (df : List Row) : List Row :=
  (fillPrices (sortTD df)).map fillVolumeRow

/-- The concrete no-look-ahead example: one ticker, four dates, Close
values 10, null, null, 13. -/
def exC1row (d : Nat) (c : Option Int) : Row :=
  { Date := d, Ticker := "X", Open := some 1, High := some 2, Low := some 1,
    Close := c, Volume := some 5 }

def exC1df : List Row :=
  [exC1row 1 (some 10), exC1row 2 none, exC1row 3 none, exC1row 4 (some 13)]

theorem priorRun_cons (c : Col) (t : String) (r : Row) (rs : List Row) :
    priorRun c t (r :: rs) =
      if r.Ticker = t then
        match getCol c r with
        | some v => some v
        | none => priorRun c t rs
      else none := rfl

theorem volume_fillPrices {df : List Row} {i : Nat} (h : i < df.length) :
    ((fillPrices df).getD i default).Volume = (df.getD i default).Volume := by
  have hm : (fillPrices df).map Row.Volume = df.map Row.Volume :=
    fillPrices_map Row.Volume volume_setCol df
  exact map_eq_getD_eq hm i (by rw [fillPrices_length]; exact h)

theorem ticker_fillPrices {df : List Row} {i : Nat} (h : i < df.length) :
    ((fillPrices df).getD i default).Ticker = (df.getD i default).Ticker := by
  have hm : (fillPrices df).map Row.Ticker = df.map Row.Ticker :=
    fillPrices_map Row.Ticker ticker_setCol df
  exact map_eq_getD_eq hm i (by rw [fillPrices_length]; exact h)

theorem date_fillPrices {df : List Row} {i : Nat} (h : i < df.length) :
    ((fillPrices df).getD i default).Date = (df.getD i default).Date := by
  have hm : (fillPrices df).map Row.Date = df.map Row.Date :=
    fillPrices_map Row.Date date_setCol df
  exact map_eq_getD_eq hm i (by rw [fillPrices_length]; exact h)

/-- C1.  `handle_missing_values` fills a null Open/High/Low/Close cell only
with the most recent earlier non-null value of the same column within the
same ticker's series — a non-null cell keeps its own value, so no value ever
travels forward from a later date or from another ticker (conjuncts 1 and
5); null Volume becomes 0 (conjunct 2); Date and Ticker are untouched
(conjuncts 3 and 4); exactly the rows whose Close is still null after the
forward-fill are dropped (conjunct 6); and the ticker with Close values
[10, null, null, 13] comes out as [10, 10, 10, 13] (conjunct 7). -/
theorem handle_missing_values_forward_fill_spec (df : List Row) (i : Nat)
    (h : i < (sortTD df).length) :
    (∀ c : Col, getCol c ((filledFrame df).getD i default) =
      match getCol c ((sortTD df).getD i default) with
      | some v => some v
      | none => priorAll c (((sortTD df).getD i default).Ticker)
          (((sortTD df).take i).reverse)) ∧
    ((filledFrame df).getD i default).Volume =
      some ((((sortTD df).getD i default).Volume).getD 0) ∧
    ((filledFrame df).getD i default).Ticker =
      ((sortTD df).getD i default).Ticker ∧
    ((filledFrame df).getD i default).Date =
      ((sortTD df).getD i default).Date ∧
    (∀ (c : Col) (t : String) (l : List Row) (v : Int),
      priorAll c t l = some v → ∃ x ∈ l, x.Ticker = t ∧ getCol c x = some v) ∧
    handle_missing_values df =
      (filledFrame df).filter (fun r => r.Close.isSome) ∧
    (handle_missing_values exC1df).map (fun r => r.Close) =
      [some 10, some 10, some 10, some 13] := by
  have hs : List.Sorted keyLe (sortTD df) := List.sorted_insertionSort keyLe df
  have hiF : i < (fillPrices (sortTD df)).length := by
    rw [fillPrices_length]; exact h
  have hmapD : (filledFrame df).getD i default =
      fillVolumeRow ((fillPrices (sortTD df)).getD i default) :=
    getD_map_of_lt fillVolumeRow hiF
  have hgd : (sortTD df).getD i default = (sortTD df)[i] :=
    List.getD_eq_getElem _ _ h
  refine ⟨?_, ?_, ?_, ?_, ?_, rfl, by decide⟩
  · intro c
    rw [hmapD, getCol_fillVolumeRow, fillPrices_getCol c _ i h]
    have htke : (sortTD df).take (i + 1) =
        (sortTD df).take i ++ [(sortTD df)[i]] := by
      rw [List.take_succ, List.getElem?_eq_getElem h]
      rfl
    rw [htke, List.reverse_append, List.reverse_cons, List.reverse_nil,
      List.nil_append, List.singleton_append, priorRun_cons,
      if_pos (by rw [hgd]), ← hgd]
    cases hg : getCol c ((sortTD df).getD i default) with
    | some v => simp [hg]
    | none => simpa [hg] using priorRun_eq_priorAll_sorted c hs i h
  · rw [hmapD]
    show some ((((fillPrices (sortTD df)).getD i default).Volume).getD 0) = _
    rw [volume_fillPrices h]
  · rw [hmapD]
    show ((fillPrices (sortTD df)).getD i default).Ticker = _
    rw [ticker_fillPrices h]
  · rw [hmapD]
    show ((fillPrices (sortTD df)).getD i default).Date = _
    rw [date_fillPrices h]
  · intro c t l v hv
    exact priorAll_mem c t hv

/-- Witness for C1: the characterization applied at the concrete
[10, null, null, 13] frame, position 1 (the first null-Close row). -/
theorem handle_missing_values_forward_fill_spec_witness :
    1 < (sortTD exC1df).length ∧
    ((∀ c : Col, getCol c ((filledFrame exC1df).getD 1 default) =
      match getCol c ((sortTD exC1df).getD 1 default) with
      | some v => some v
      | none => priorAll c (((sortTD exC1df).getD 1 default).Ticker)
          (((sortTD exC1df).take 1).reverse)) ∧
    ((filledFrame exC1df).getD 1 default).Volume =
      some ((((sortTD exC1df).getD 1 default).Volume).getD 0) ∧
    ((filledFrame exC1df).getD 1 default).Ticker =
      ((sortTD exC1df).getD 1 default).Ticker ∧
    ((filledFrame exC1df).getD 1 default).Date =
      ((sortTD exC1df).getD 1 default).Date ∧
    (∀ (c : Col) (t : String) (l : List Row) (v : Int),
      priorAll c t l = some v → ∃ x ∈ l, x.Ticker = t ∧ getCol c x = some v) ∧
    handle_missing_values exC1df =
      (filledFrame exC1df).filter (fun r => r.Close.isSome) ∧
    (handle_missing_values exC1df).map (fun r => r.Close) =
      [some 10, some 10, some 10, some 13]) :=
  ⟨by decide, handle_missing_values_forward_fill_spec exC1df 1 (by decide)⟩

/-! ## Deduplication (claim C6) -/

/-- Membership test for the (date, ticker) group `(d, t)`. -/
def pKey (d : Nat) (t : String) (r : Row) : Bool :=
  decide (r.Date = d) && decide (r.Ticker = t)

theorem getLast?_cons_of_ne_nil {α : Type} (a : α) {l : List α} (h : l ≠ []) :
    (a :: l).getLast? = l.getLast? := by
  cases l with
  | nil => exact absurd rfl h
  | cons b bs => exact List.getLast?_cons_cons

theorem remove_duplicates_sublist : ∀ l : List Row,
    (remove_duplicates l).Sublist l
  | [] => .slnil
  | r :: rs => by
    by_cases hany : rs.any (sameKey r) = true
    · simp only [remove_duplicates, if_pos hany]
      exact (remove_duplicates_sublist rs).cons r
    · simp only [remove_duplicates, if_neg hany]
      exact (remove_duplicates_sublist rs).cons₂ r

theorem sameKey_of_pKey {d : Nat} {t : String} {r r' : Row}
    (hp : pKey d t r = true) (hp' : pKey d t r' = true) :
    sameKey r r' = true := by
  simp only [pKey, Bool.and_eq_true, decide_eq_true_eq] at hp hp'
  simp [sameKey, hp.1, hp.2, hp'.1, hp'.2]

theorem pKey_of_sameKey {d : Nat} {t : String} {r r' : Row}
    (hp : pKey d t r = true) (hk : sameKey r r' = true) :
    pKey d t r' = true := by
  simp only [pKey, Bool.and_eq_true, decide_eq_true_eq] at hp ⊢
  simp only [sameKey, Bool.and_eq_true, decide_eq_true_eq] at hk
  exact ⟨hk.1.trans hp.1, hk.2.trans hp.2⟩

theorem remove_duplicates_filter (d : Nat) (t : String) :
    ∀ l : List Row, (remove_duplicates l).filter (pKey d t) =
      ((l.filter (pKey d t)).getLast?).toList
  | [] => rfl
  | r :: rs => by
    by_cases hany : rs.any (sameKey r) = true
    · simp only [remove_duplicates, if_pos hany]
      rw [remove_duplicates_filter d t rs]
      by_cases hp : pKey d t r = true
      · obtain ⟨r', hr', hk⟩ := List.any_eq_true.mp hany
        have hpr' : pKey d t r' = true := pKey_of_sameKey hp hk
        have hne : rs.filter (pKey d t) ≠ [] := by
          intro hnil
          have hmem := List.mem_filter.mpr ⟨hr', hpr'⟩
          rw [hnil] at hmem
          exact List.not_mem_nil r' hmem
        rw [List.filter_cons_of_pos hp, getLast?_cons_of_ne_nil r hne]
      · rw [List.filter_cons_of_neg hp]
    · simp only [remove_duplicates, if_neg hany]
      have hnok : ∀ x ∈ rs, ¬ sameKey r x = true := by
        simpa [List.any_eq_true] using hany
      by_cases hp : pKey d t r = true
      · have hfrs : rs.filter (pKey d t) = [] := by
          rw [List.filter_eq_nil]
          intro x hx hpx
          exact hnok x hx (sameKey_of_pKey hp hpx)
        have hfrd : (remove_duplicates rs).filter (pKey d t) = [] := by
          rw [remove_duplicates_filter d t rs, hfrs, List.getLast?_nil]
          rfl
        rw [List.filter_cons_of_pos hp, List.filter_cons_of_pos hp, hfrd, hfrs]
        rfl
      · rw [List.filter_cons_of_neg hp, List.filter_cons_of_neg hp]
        exact remove_duplicates_filter d t rs

/-- The deduplicated frame has pairwise distinct (Date, Ticker) keys. -/
theorem remove_duplicates_pairwise : ∀ l : List Row,
    List.Pairwise (fun a b => sameKey a b = false) (remove_duplicates l)
  | [] => .nil
  | r :: rs => by
    by_cases hany : rs.any (sameKey r) = true
    · simp only [remove_duplicates, if_pos hany]
      exact remove_duplicates_pairwise rs
    · simp only [remove_duplicates, if_neg hany]
      refine List.Pairwise.cons ?_ (remove_duplicates_pairwise rs)
      intro b hb
      have hbrs : b ∈ rs := (remove_duplicates_sublist rs).subset hb
      have hnok : ∀ x ∈ rs, ¬ sameKey r x = true := by
        simpa [List.any_eq_true] using hany
      exact Bool.eq_false_iff.mpr (hnok b hbrs)

theorem remove_duplicates_of_pairwise : ∀ {l : List Row},
    List.Pairwise (fun a b => sameKey a b = false) l →
      remove_duplicates l = l
  | [], _ => rfl
  | r :: rs, h => by
    obtain ⟨hhead, htail⟩ := List.pairwise_cons.mp h
    have hany : rs.any (sameKey r) = false := by
      rw [List.any_eq_false]
      intro x hx
      exact Bool.eq_false_iff.mp (hhead x hx)
    simp only [remove_duplicates, hany, Bool.false_eq_true, if_false]
    rw [remove_duplicates_of_pairwise htail]

/-- C6.  Deduplication is last-write-wins per (date, ticker) group: for
every group key the output contains exactly the last arriving row of that
group (nothing when the group is empty); the output is a subsequence of the
input (arrival order preserved); and the operation is idempotent — a second
application returns its input unchanged, so row count and rows agree. -/
theorem remove_duplicates_last_write_wins (df : List Row) (d : Nat)
    (t : String) :
    (remove_duplicates df).filter (pKey d t) =
      ((df.filter (pKey d t)).getLast?).toList ∧
    remove_duplicates (remove_duplicates df) = remove_duplicates df ∧
    (remove_duplicates df).Sublist df :=
  ⟨remove_duplicates_filter d t df,
   remove_duplicates_of_pairwise (remove_duplicates_pairwise df),
   remove_duplicates_sublist df⟩

/-! ## Validation (claims C3 and C4) -/

theorem negPriceFilter_def (df : List Row) :
    negPriceFilter df =
      filterNegStep (filterNegStep (filterNegStep (filterNegStep df
        Col.Open) Col.High) Col.Low) Col.Close := rfl

theorem filterNegStep_sublist (df : List Row) (c : Col) :
    (filterNegStep df c).Sublist df := by
  unfold filterNegStep
  split
  · exact List.filter_sublist df
  · exact List.Sublist.refl df

theorem negPriceFilter_sublist (df : List Row) :
    (negPriceFilter df).Sublist df := by
  rw [negPriceFilter_def]
  exact ((((filterNegStep_sublist _ Col.Close).trans
    (filterNegStep_sublist _ Col.Low)).trans
    (filterNegStep_sublist _ Col.High)).trans
    (filterNegStep_sublist _ Col.Open))

theorem filterNegStep_no_neg (df : List Row) (c : Col) :
    ∀ r ∈ filterNegStep df c, negB (getCol c r) = false := by
  intro r hr
  unfold filterNegStep at hr
  split at hr
  · have hg : geZB (getCol c r) = true := (List.mem_filter.mp hr).2
    cases hv : getCol c r with
    | none => rw [hv] at hg; exact absurd hg (by simp [geZB])
    | some v =>
      rw [hv] at hg
      simp only [geZB, decide_eq_true_eq] at hg
      simp [negB, hv]
      omega
  · next hcnt =>
    have hz : df.countP (fun r => negB (getCol c r)) = 0 := by omega
    exact Bool.eq_false_iff.mpr (List.countP_eq_zero.mp hz r hr)

theorem filterNegStep_mem (df : List Row) (c : Col) {r : Row} (h : r ∈ df)
    (hg : geZB (getCol c r) = true) : r ∈ filterNegStep df c := by
  unfold filterNegStep
  split
  · exact List.mem_filter.mpr ⟨h, hg⟩
  · exact h

/-- Survivors of the negative-price sweep carry no negative price value. -/
theorem negPriceFilter_no_neg (df : List Row) :
    ∀ r ∈ negPriceFilter df, ∀ c : Col, negB (getCol c r) = false := by
  intro r hr c
  rw [negPriceFilter_def] at hr
  cases c with
  | Close => exact filterNegStep_no_neg _ Col.Close r hr
  | Low =>
    exact filterNegStep_no_neg _ Col.Low r
      ((filterNegStep_sublist _ Col.Close).subset hr)
  | High =>
    exact filterNegStep_no_neg _ Col.High r
      (((filterNegStep_sublist _ Col.Close).trans
        (filterNegStep_sublist _ Col.Low)).subset hr)
  | Open =>
    exact filterNegStep_no_neg _ Col.Open r
      ((((filterNegStep_sublist _ Col.Close).trans
        (filterNegStep_sublist _ Col.Low)).trans
        (filterNegStep_sublist _ Col.High)).subset hr)

/-- A row with all four prices present and non-negative survives the sweep. -/
theorem negPriceFilter_mem (df : List Row) {r : Row} (h : r ∈ df)
    (hg : ∀ c : Col, geZB (getCol c r) = true) : r ∈ negPriceFilter df := by
  rw [negPriceFilter_def]
  exact filterNegStep_mem _ Col.Close
    (filterNegStep_mem _ Col.Low
      (filterNegStep_mem _ Col.High
        (filterNegStep_mem _ Col.Open h (hg Col.Open)) (hg Col.High))
      (hg Col.Low)) (hg Col.Close)

theorem map_clamp_of_no_neg {l : List Row}
    (h : l.countP (fun r => negB r.Volume) = 0) : l.map clampVolume = l := by
  have hall := List.countP_eq_zero.mp h
  have : l.map clampVolume = l.map id :=
    List.map_congr_left fun a ha => by
      simp [clampVolume, Bool.eq_false_iff.mpr (hall a ha)]
  rw [this, List.map_id]

theorem map_swap_of_no_invalid {l : List Row}
    (h : l.countP (fun r => optLtB r.High r.Low) = 0) :
    l.map swapHighLow = l := by
  have hall := List.countP_eq_zero.mp h
  have : l.map swapHighLow = l.map id :=
    List.map_congr_left fun a ha => by
      simp [swapHighLow, Bool.eq_false_iff.mpr (hall a ha)]
  rw [this, List.map_id]

/-- The conditionals of `validate_data` are equivalent to the unconditional
pointwise clamp-then-swap over the negative-price survivors; in particular
the Close-outside-range check changes nothing. -/
theorem validate_data_eq (df : List Row) :
    validate_data df = ((negPriceFilter df).map clampVolume).map swapHighLow := by
  simp only [validate_data]
  by_cases h2 : 0 < (negPriceFilter df).countP fun r => negB r.Volume
  · rw [if_pos h2]
    by_cases h3 : 0 < ((negPriceFilter df).map clampVolume).countP
        fun r => optLtB r.High r.Low
    · rw [if_pos h3]
    · rw [if_neg h3, map_swap_of_no_invalid (by omega)]
  · rw [if_neg h2, map_clamp_of_no_neg (by omega)]
    by_cases h3 : 0 < (negPriceFilter df).countP fun r => optLtB r.High r.Low
    · rw [if_pos h3]
    · rw [if_neg h3, map_swap_of_no_invalid (by omega)]

theorem getCol_clampVolume (c : Col) (r : Row) :
    getCol c (clampVolume r) = getCol c r := by
  unfold clampVolume
  split <;> cases c <;> rfl

theorem no_neg_swapHighLow {r : Row} (h : ∀ c : Col, negB (getCol c r) = false)
    (c : Col) : negB (getCol c (swapHighLow r)) = false := by
  unfold swapHighLow
  split
  · cases c with
    | Open => exact h Col.Open
    | High => exact h Col.Low
    | Low => exact h Col.High
    | Close => exact h Col.Close
  · exact h c

/-- A row with a negative Open; removed by the sweep (corrupt input). -/
def rC3neg : Row :=
  { Date := 0, Ticker := "Y", Open := some (-1), High := some 2,
    Low := some 1, Close := some 5, Volume := some 3 }

/-- A row with a *null* Open and no negative value anywhere. -/
def rC3null : Row :=
  { Date := 1, Ticker := "Y", Open := none, High := some 2, Low := some 1,
    Close := some 5, Volume := some 3 }

def dfC3 : List Row := [rC3neg, rC3null]

/-- C3 counterexample: the claim says `validate_data` removes *exactly* the
rows with some negative price value, and never removes a row whose prices
are all non-negative.  But on `dfC3` the Open column contains a negative
value, so pandas' `df[df['Open'] >= 0]` also discards `rC3null`, whose Open
is null and which carries no negative value at all: the output is empty. -/
theorem validate_data_negative_price_removal_cex :
    rC3null ∈ dfC3 ∧
    (∀ c : Col, negB (getCol c rC3null) = false) ∧
    validate_data dfC3 = [] :=
  ⟨by decide, by decide, by decide⟩

/-- C3 (amended).  `validate_data` removes every row containing a negative
price value — no survivor has one (conjunct 1); a row whose four prices are
all present and non-negative is never removed, surviving as its
volume-clamped, High/Low-repaired self (conjunct 2); negative volume is
clamped to zero without removing the row, non-negative volume is untouched
(conjuncts 3 and 4); and the whole step is the negative-price sweep followed
by the pointwise clamp and swap (conjunct 5).  When a price column holds
both a negative value and nulls, the rows that are null in that column are
removed together with the negative ones (see the counterexample). -/
theorem validate_data_negative_price_removal_amended (df : List Row) :
    (∀ r ∈ validate_data df, ∀ c : Col, negB (getCol c r) = false) ∧
    (∀ r ∈ df, (∀ c : Col, geZB (getCol c r) = true) →
      swapHighLow (clampVolume r) ∈ validate_data df) ∧
    (∀ r : Row, negB r.Volume = true →
      clampVolume r = { r with Volume := some 0 }) ∧
    (∀ r : Row, negB r.Volume = false → clampVolume r = r) ∧
    validate_data df = ((negPriceFilter df).map clampVolume).map swapHighLow := by
  refine ⟨?_, ?_, ?_, ?_, validate_data_eq df⟩
  · intro r hr c
    rw [validate_data_eq df] at hr
    obtain ⟨r₁, hr₁, hswap⟩ := List.mem_map.mp hr
    obtain ⟨r₀, hr₀, hclamp⟩ := List.mem_map.mp hr₁
    have h0 : ∀ c : Col, negB (getCol c r₀) = false :=
      negPriceFilter_no_neg df r₀ hr₀
    have h1 : ∀ c : Col, negB (getCol c r₁) = false := by
      intro c; rw [← hclamp, getCol_clampVolume]; exact h0 c
    rw [← hswap]
    exact no_neg_swapHighLow h1 c
  · intro r hr hg
    rw [validate_data_eq df]
    exact List.mem_map_of_mem swapHighLow
      (List.mem_map_of_mem clampVolume (negPriceFilter_mem df hr hg))
  · intro r h
    unfold clampVolume
    rw [if_pos h]
  · intro r h
    unfold clampVolume
    rw [if_neg (Bool.eq_false_iff.mp h)]

/-- A benign row: all prices present and non-negative, volume negative. -/
def rC3good : Row :=
  { Date := 2, Ticker := "Y", Open := some 4, High := some 9, Low := some 3,
    Close := some 7, Volume := some 6 }

def rC3vol : Row :=
  { Date := 3, Ticker := "Y", Open := some 4, High := some 9, Low := some 3,
    Close := some 7, Volume := some (-50) }

/-- Witness for the amended C3: on `[rC3good, rC3vol]` the benign row
survives unchanged and the `volume = -50` row survives with volume 0. -/
theorem validate_data_negative_price_removal_amended_witness :
    rC3vol ∈ [rC3good, rC3vol] ∧
    (∀ c : Col, geZB (getCol c rC3vol) = true) ∧
    swapHighLow (clampVolume rC3vol) ∈ validate_data [rC3good, rC3vol] ∧
    negB rC3vol.Volume = true ∧
    clampVolume rC3vol = { rC3vol with Volume := some 0 } :=
  ⟨by decide, by decide,
   (validate_data_negative_price_removal_amended [rC3good, rC3vol]).2.1
     rC3vol (by decide) (by decide),
   by decide,
   (validate_data_negative_price_removal_amended [rC3good, rC3vol]).2.2.1
     rC3vol (by decide)⟩

/-- The High/Low transposition example: high = 5, low = 8. -/
def exC4row : Row :=
  { Date := 0, Ticker := "Z", Open := some 6, High := some 5, Low := some 8,
    Close := some 6, Volume := some 1 }

/-- C4.  `validate_data` swaps High and Low in every surviving row with
`High < Low` (conjunct 2 gives the swap, conjunct 1 that it is applied
pointwise to every survivor), leaves every other surviving row untouched
(conjunct 3), so a row whose only anomaly is a Close outside [Low, High] is
passed through entirely unmodified (conjunct 4) — the Close-range check of
the source only computes a count; conjunct 5 replays the high=5/low=8
example: it comes out as high=8, low=5. -/
theorem validate_data_high_low_swap_spec (df : List Row) :
    validate_data df = ((negPriceFilter df).map clampVolume).map swapHighLow ∧
    (∀ r : Row, optLtB r.High r.Low = true →
      swapHighLow r = { r with High := r.Low, Low := r.High }) ∧
    (∀ r : Row, optLtB r.High r.Low = false → swapHighLow r = r) ∧
    (∀ r ∈ negPriceFilter df, negB r.Volume = false →
      optLtB r.High r.Low = false → r ∈ validate_data df) ∧
    validate_data [exC4row] =
      [{ exC4row with High := exC4row.Low, Low := exC4row.High }] := by
  refine ⟨validate_data_eq df, ?_, ?_, ?_, by decide⟩
  · intro r h
    unfold swapHighLow
    rw [if_pos h]
  · intro r h
    unfold swapHighLow
    rw [if_neg (Bool.eq_false_iff.mp h)]
  · intro r hr hvol hswap
    rw [validate_data_eq df]
    have hcl : clampVolume r = r := by
      unfold clampVolume
      rw [if_neg (Bool.eq_false_iff.mp hvol)]
    have hsw : swapHighLow r = r := by
      unfold swapHighLow
      rw [if_neg (Bool.eq_false_iff.mp hswap)]
    have : r ∈ (negPriceFilter df).map clampVolume := by
      have := List.mem_map_of_mem clampVolume hr
      rwa [hcl] at this
    have h2 := List.mem_map_of_mem swapHighLow this
    rwa [hsw] at h2

/-- A row whose Close (20) lies outside [Low, High] = [3, 9] but which is
otherwise clean: flagged only, never dropped or changed. -/
def rC4outside : Row :=
  { Date := 1, Ticker := "Z", Open := some 4, High := some 9, Low := some 3,
    Close := some 20, Volume := some 2 }

/-- Witness for C4: the swap applied to the concrete high=5/low=8 row, and
the close-outside-range row passing through `validate_data` untouched. -/
theorem validate_data_high_low_swap_spec_witness :
    optLtB exC4row.High exC4row.Low = true ∧
    swapHighLow exC4row = { exC4row with High := exC4row.Low, Low := exC4row.High } ∧
    rC4outside ∈ negPriceFilter [rC4outside] ∧
    negB rC4outside.Volume = false ∧
    optLtB rC4outside.High rC4outside.Low = false ∧
    rC4outside ∈ validate_data [rC4outside] :=
  ⟨by decide,
   (validate_data_high_low_swap_spec [exC4row]).2.1 exC4row (by decide),
   by decide, by decide, by decide,
   (validate_data_high_low_swap_spec [rC4outside]).2.2.2.1 rC4outside
     (by decide) (by decide) (by decide)⟩

/-! ## Downloader batch loop (claims C5, C2, C10) -/

theorem downloadGo_ne_nil {resp : String → Nat → FetchResult} {t : String}
    {df : List Row} :
    ∀ {a fuel : Nat}, downloadGo resp t a fuel = some df → df.isEmpty = false
  | _, 0, h => by simp [downloadGo] at h
  | a, fuel + 1, h => by
    unfold downloadGo at h
    cases hr : resp t a with
    | ok bars =>
      rw [hr] at h
      have h' : (if bars.isEmpty = true then none
          else some (tagFrame t bars)) = some df := h
      by_cases hb : bars.isEmpty = true
      · rw [if_pos hb] at h'
        exact absurd h' (by simp)
      · rw [if_neg hb] at h'
        have hdf : df = tagFrame t bars := by
          have := Option.some.inj h'
          rw [this]
        have hb' : bars ≠ [] := fun hnil => hb (by rw [hnil]; rfl)
        rw [hdf, Bool.eq_false_iff]
        intro hmap
        rw [List.isEmpty_iff] at hmap
        exact hb' (List.map_eq_nil.mp hmap)
    | err =>
      rw [hr] at h
      have h' : downloadGo resp t (a + 1) fuel = some df := h
      exact downloadGo_ne_nil h'

theorem download_ticker_ne_nil {resp : String → Nat → FetchResult}
    {max_retries : Nat} {t : String} {df : List Row}
    (h : download_ticker resp max_retries t = some df) : df.isEmpty = false :=
  downloadGo_ne_nil h

/-- The batch loop, characterized: frames accumulate in order of success,
`total_tickers` is untouched, the two counters advance by the number of
successful/failed tickers, and every failed ticker is appended in order. -/
theorem download_foldl (resp : String → Nat → FetchResult) (m : Nat) :
    ∀ (ts : List String) (fs : List (List Row)) (st : DownloadStats),
      ts.foldl (dlStep resp m) (fs, st) =
        (fs ++ ts.filterMap (download_ticker resp m),
         { total_tickers := st.total_tickers
           successful := st.successful +
             (ts.filter fun t => (download_ticker resp m t).isSome).length
           failed := st.failed +
             (ts.filter fun t => (download_ticker resp m t).isNone).length
           failed_tickers := st.failed_tickers ++
             ts.filter fun t => (download_ticker resp m t).isNone })
  | [], fs, st => by simp
  | t :: ts, fs, st => by
    rw [List.foldl_cons]
    cases hd : download_ticker resp m t with
    | none =>
      have hstep : dlStep resp m (fs, st) t =
          (fs, { st with
                 failed := st.failed + 1
                 failed_tickers := st.failed_tickers ++ [t] }) := by
        unfold dlStep
        rw [hd]
      rw [hstep, download_foldl resp m ts]
      simp only [Prod.mk.injEq, DownloadStats.mk.injEq, List.filterMap_cons,
        hd, List.filter_cons, Option.isSome_none, Bool.false_eq_true,
        if_false, Option.isNone_none, if_true, List.length_cons,
        List.append_assoc, List.singleton_append, true_and, and_true]
      try omega
    | some df =>
      have hne : df.isEmpty = false := download_ticker_ne_nil hd
      have hstep : dlStep resp m (fs, st) t =
          (fs ++ [df], { st with successful := st.successful + 1 }) := by
        simp [dlStep, hd, hne]
      rw [hstep, download_foldl resp m ts]
      simp only [Prod.mk.injEq, DownloadStats.mk.injEq, List.filterMap_cons,
        hd, List.filter_cons, Option.isSome_some, if_true,
        Option.isNone_some, Bool.false_eq_true, if_false, List.length_cons,
        List.append_assoc, List.singleton_append, true_and, and_true]
      try omega

/-- `download_all`, componentwise. -/
theorem download_all_spec (resp : String → Nat → FetchResult) (m : Nat)
    (tickers : List String) :
    (download_all resp m tickers).1 =
      (tickers.filterMap (download_ticker resp m)).flatten ∧
    (download_all resp m tickers).2.total_tickers = tickers.length ∧
    (download_all resp m tickers).2.successful =
      (tickers.filter fun t => (download_ticker resp m t).isSome).length ∧
    (download_all resp m tickers).2.failed =
      (tickers.filter fun t => (download_ticker resp m t).isNone).length ∧
    (download_all resp m tickers).2.failed_tickers =
      tickers.filter fun t => (download_ticker resp m t).isNone := by
  have h := download_foldl resp m tickers []
    { total_tickers := tickers.length, successful := 0, failed := 0,
      failed_tickers := [] }
  simp only [download_all]
  rw [h]
  simp

theorem length_filter_some_none (f : String → Option (List Row)) :
    ∀ l : List String,
      (l.filter fun t => (f t).isSome).length +
        (l.filter fun t => (f t).isNone).length = l.length
  | [] => rfl
  | t :: ts => by
    have ih := length_filter_some_none f ts
    cases h : f t <;>
      simp only [List.filter_cons, h, Option.isSome_none, Option.isSome_some,
        Option.isNone_none, Option.isNone_some, Bool.false_eq_true, if_false,
        if_true, List.length_cons] <;>
      omega

/-- C5.  After the batch loop of `download_all`, `successful + failed`
equals `total_tickers`, and the failed-ticker list has exactly `failed`
entries: every attempted ticker increments exactly one of the counters. -/
theorem download_all_stats_sum_invariant (resp : String → Nat → FetchResult)
    (max_retries : Nat) (tickers : List String) :
    (download_all resp max_retries tickers).2.successful +
        (download_all resp max_retries tickers).2.failed =
      (download_all resp max_retries tickers).2.total_tickers ∧
    (download_all resp max_retries tickers).2.failed_tickers.length =
      (download_all resp max_retries tickers).2.failed := by
  obtain ⟨-, h2, h3, h4, h5⟩ := download_all_spec resp max_retries tickers
  constructor
  · rw [h2, h3, h4]
    exact length_filter_some_none (download_ticker resp max_retries) tickers
  · rw [h5, h4]

theorem downloadGo_none {resp : String → Nat → FetchResult} {t : String}
    (h : ∀ a, resp t a = FetchResult.err ∨ resp t a = FetchResult.ok []) :
    ∀ (a fuel : Nat), downloadGo resp t a fuel = none
  | _, 0 => rfl
  | a, fuel + 1 => by
    unfold downloadGo
    rcases h a with hr | hr
    · rw [hr]
      exact downloadGo_none h (a + 1) fuel
    · rw [hr]
      rfl

/-- A ticker whose provider response is empty, errors out, or any mixture of
the two on all attempts, downloads nothing. -/
theorem download_ticker_none {resp : String → Nat → FetchResult}
    (max_retries : Nat) {t : String}
    (h : ∀ a, resp t a = FetchResult.err ∨ resp t a = FetchResult.ok []) :
    download_ticker resp max_retries t = none :=
  downloadGo_none h 0 max_retries

theorem filterMap_filter_ne {f : String → Option (List Row)} {t : String}
    (hf : f t = none) :
    ∀ l : List String,
      (l.filter fun u => decide (u ≠ t)).filterMap f = l.filterMap f
  | [] => rfl
  | u :: l => by
    by_cases hu : u = t
    · have hp : ¬ (fun u => decide (u ≠ t)) u = true := by simp [hu]
      rw [@List.filter_cons_of_neg String (fun u => decide (u ≠ t)) u l hp]
      simp only [List.filterMap_cons, hu, hf]
      exact filterMap_filter_ne hf l
    · have hp : (fun u => decide (u ≠ t)) u = true := by simp [hu]
      rw [@List.filter_cons_of_pos String (fun u => decide (u ≠ t)) u l hp]
      cases hfu : f u with
      | none =>
        simp only [List.filterMap_cons, hfu]
        exact filterMap_filter_ne hf l
      | some d =>
        simp only [List.filterMap_cons, hfu]
        rw [filterMap_filter_ne hf l]

/-- The concrete scenario frame: 100 valid daily bars for ticker A. -/
def frameA : List Bar := (List.range 100).map fun i =>
  { Date := i, Open := some 1, High := some 2, Low := some 1, Close := some 1,
    Volume := some 10 }

/-- The scenario provider: "A.NS" answers with 100 bars on every attempt,
"B.NS" (and everything else) answers with an empty frame. -/
def respAB (t : String) (_attempt : Nat) : FetchResult :=
  if t = "A.NS" then .ok frameA else .ok []

/-- C2.  A ticker whose response is empty or errors out on every attempt up
to `max_retries` downloads nothing (conjunct 1), contributes zero rows — the
returned dataset is that of the universe without it (conjunct 3) — and
appears exactly once in `failed_tickers` (conjunct 2, given that it appears
once in the universe).  Conjuncts 4–6 replay the end-to-end scenario:
universe ["A.NS", "B.NS"], "A" returns 100 valid rows, "B" returns empty →
stats {total: 2, successful: 1, failed: 1, failed_tickers: ["B.NS"]} and a
100-row dataset entirely carrying the suffix-free ticker "A". -/
theorem download_all_failed_ticker_spec (resp : String → Nat → FetchResult)
    (max_retries : Nat) (tickers : List String) (t : String)
    (hresp : ∀ a, resp t a = FetchResult.err ∨ resp t a = FetchResult.ok [])
    (hcount : tickers.count t = 1) :
    download_ticker resp max_retries t = none ∧
    (download_all resp max_retries tickers).2.failed_tickers.count t = 1 ∧
    (download_all resp max_retries tickers).1 =
      (download_all resp max_retries
        (tickers.filter fun u => decide (u ≠ t))).1 ∧
    (download_all respAB 3 ["A.NS", "B.NS"]).2 =
      { total_tickers := 2, successful := 1, failed := 1,
        failed_tickers := ["B.NS"] } ∧
    (download_all respAB 3 ["A.NS", "B.NS"]).1.length = 100 ∧
    (download_all respAB 3 ["A.NS", "B.NS"]).1.all
      (fun r => decide (r.Ticker = "A")) = true := by
  have hnone : download_ticker resp max_retries t = none :=
    download_ticker_none max_retries hresp
  refine ⟨hnone, ?_, ?_, by decide, by decide, by decide⟩
  · obtain ⟨-, -, -, -, h5⟩ := download_all_spec resp max_retries tickers
    rw [h5, List.count_filter (by simp [hnone])]
    exact hcount
  · obtain ⟨h1, -, -, -, -⟩ := download_all_spec resp max_retries tickers
    obtain ⟨h1', -, -, -, -⟩ := download_all_spec resp max_retries
      (tickers.filter fun u => decide (u ≠ t))
    rw [h1, h1', filterMap_filter_ne hnone]

/-- Witness for C2: the failed-ticker property applied at the concrete
scenario, with "B.NS" as the empty-response ticker. -/
theorem download_all_failed_ticker_spec_witness :
    ["A.NS", "B.NS"].count "B.NS" = 1 ∧
    (download_ticker respAB 3 "B.NS" = none ∧
    (download_all respAB 3 ["A.NS", "B.NS"]).2.failed_tickers.count "B.NS" = 1 ∧
    (download_all respAB 3 ["A.NS", "B.NS"]).1 =
      (download_all respAB 3
        (["A.NS", "B.NS"].filter fun u => decide (u ≠ "B.NS"))).1 ∧
    (download_all respAB 3 ["A.NS", "B.NS"]).2 =
      { total_tickers := 2, successful := 1, failed := 1,
        failed_tickers := ["B.NS"] } ∧
    (download_all respAB 3 ["A.NS", "B.NS"]).1.length = 100 ∧
    (download_all respAB 3 ["A.NS", "B.NS"]).1.all
      (fun r => decide (r.Ticker = "A")) = true) :=
  ⟨by decide,
   download_all_failed_ticker_spec respAB 3 ["A.NS", "B.NS"] "B.NS"
     (fun _ => Or.inr rfl) (by decide)⟩

/-- C10.  `download_all` on an empty ticker list returns an empty dataset
and all-zero statistics without raising; but report generation is not
total: both `save_download_report` and `print_summary` divide
`successful / total_tickers` with no guard, so a zero-ticker run makes them
raise `ZeroDivisionError` instead of producing a report. -/
theorem download_report_zero_tickers_division
    (resp : String → Nat → FetchResult) (max_retries : Nat) :
    (download_all resp max_retries []).1 = [] ∧
    (download_all resp max_retries []).2 =
      { total_tickers := 0, successful := 0, failed := 0,
        failed_tickers := [] } ∧
    save_download_report (download_all resp max_retries []).2 =
      Except.error "ZeroDivisionError" ∧
    print_summary (download_all resp max_retries []).2 =
      Except.error "ZeroDivisionError" := by
  refine ⟨rfl, rfl, ?_, ?_⟩ <;>
    simp [save_download_report, print_summary, pyDiv, download_all, dlStep,
      Except.bind]

/-! ## Ticker resolver (claim C9) -/

/-- C9.  `fetch_tickers` never reaches its terminal `ValueError` — the
static third source is a non-empty constant, so "all three sources empty"
is impossible — and in every case it returns the first non-empty source of
the NSE → Wikipedia → hardcoded chain with the `.NS` market suffix appended
to every identifier; that source, hence the result, is non-empty. -/
theorem fetch_tickers_total_spec (nse wiki : List String) :
    fetch_tickers nse wiki = Except.ok
      ((if nse.isEmpty then
          if wiki.isEmpty then use_hardcoded_list else wiki
        else nse).map fun t => t ++ ".NS") ∧
    (if nse.isEmpty then
        if wiki.isEmpty then use_hardcoded_list else wiki
      else nse) ≠ [] ∧
    use_hardcoded_list ≠ [] := by
  have hhard : use_hardcoded_list ≠ [] := by decide
  by_cases h1 : nse.isEmpty = true
  · by_cases h2 : wiki.isEmpty = true
    · refine ⟨?_, by simp [h1, h2, hhard], hhard⟩
      simp [fetch_tickers, h1, h2, List.isEmpty_iff, hhard]
    · have hw : wiki ≠ [] := by simpa [List.isEmpty_iff] using h2
      refine ⟨?_, by simp [h1, h2, hw], hhard⟩
      simp [fetch_tickers, h1, h2, List.isEmpty_iff, hw]
  · have hn : nse ≠ [] := by simpa [List.isEmpty_iff] using h1
    refine ⟨?_, by simp [h1, hn], hhard⟩
    simp [fetch_tickers, h1, List.isEmpty_iff, hn]

/-! ## Quality score (claim C8) -/

theorem round2_bounds {q : ℚ} (h0 : 0 ≤ q) (h1 : q ≤ 100) :
    0 ≤ round2 q ∧ round2 q ≤ 100 := by
  have hr : (0 : ℤ) ≤ round (q * 100) ∧ round (q * 100) ≤ 10000 := by
    rw [round_eq]
    constructor
    · exact Int.le_floor.mpr (by push_cast; linarith)
    · have hf : (⌊q * 100 + 1 / 2⌋ : ℚ) ≤ q * 100 + 1 / 2 := Int.floor_le _
      have hlt : (⌊q * 100 + 1 / 2⌋ : ℚ) < 10001 := by linarith
      have h2 : ⌊q * 100 + 1 / 2⌋ < 10001 := by exact_mod_cast hlt
      omega
  have hc0 : (0 : ℚ) ≤ (round (q * 100) : ℤ) := by exact_mod_cast hr.1
  have hc1 : ((round (q * 100) : ℤ) : ℚ) ≤ 10000 := by exact_mod_cast hr.2
  unfold round2
  constructor
  · positivity
  · rw [div_le_iff (by norm_num : (0 : ℚ) < 100)]
    linarith

/-- C8.  The quality score is `(0.5 * retention + 0.5 * completeness) * 100`
with `retention = final / initial` and `completeness = 1 - filled / initial`
(the code guards the denominator with `max(initial, 1)`, which coincides
with `initial` whenever `initial > 0`, conjunct 1); and for well-formed
inputs (counts are naturals, `final ≤ initial`, `filled ≤ initial`) the
score lies in [0, 100], both before (conjuncts 2 and 3) and after
(conjuncts 4 and 5) the two-decimal rounding the code stores. -/
theorem quality_score_formula_bounds (initial_rows final_rows
    missing_values_filled : Nat) (hpos : 0 < initial_rows)
    (hf : final_rows ≤ initial_rows)
    (hm : missing_values_filled ≤ initial_rows) :
    quality_score initial_rows final_rows missing_values_filled =
      ((final_rows : ℚ) / initial_rows * 0.5 +
        (1 - (missing_values_filled : ℚ) / initial_rows) * 0.5) * 100 ∧
    0 ≤ quality_score initial_rows final_rows missing_values_filled ∧
    quality_score initial_rows final_rows missing_values_filled ≤ 100 ∧
    0 ≤ data_quality_score initial_rows final_rows missing_values_filled ∧
    data_quality_score initial_rows final_rows missing_values_filled ≤ 100 := by
  have hmax : max initial_rows 1 = initial_rows := Nat.max_eq_left hpos
  have hden : (0 : ℚ) < (initial_rows : ℚ) := by exact_mod_cast hpos
  have hfc : (final_rows : ℚ) ≤ (initial_rows : ℚ) := by exact_mod_cast hf
  have hmc : (missing_values_filled : ℚ) ≤ (initial_rows : ℚ) := by
    exact_mod_cast hm
  have hfc0 : (0 : ℚ) ≤ (final_rows : ℚ) := by positivity
  have hmc0 : (0 : ℚ) ≤ (missing_values_filled : ℚ) := by positivity
  have hr1 : (final_rows : ℚ) / (initial_rows : ℚ) ≤ 1 :=
    (div_le_one hden).mpr hfc
  have hr0 : (0 : ℚ) ≤ (final_rows : ℚ) / (initial_rows : ℚ) := by positivity
  have hq1 : (missing_values_filled : ℚ) / (initial_rows : ℚ) ≤ 1 :=
    (div_le_one hden).mpr hmc
  have hq0 : (0 : ℚ) ≤ (missing_values_filled : ℚ) / (initial_rows : ℚ) := by
    positivity
  have heq : quality_score initial_rows final_rows missing_values_filled =
      ((final_rows : ℚ) / initial_rows * 0.5 +
        (1 - (missing_values_filled : ℚ) / initial_rows) * 0.5) * 100 := by
    simp only [quality_score, hmax]
  have hlo : 0 ≤ quality_score initial_rows final_rows
      missing_values_filled := by
    rw [heq]
    nlinarith
  have hhi : quality_score initial_rows final_rows
      missing_values_filled ≤ 100 := by
    rw [heq]
    nlinarith
  obtain ⟨hdlo, hdhi⟩ := round2_bounds hlo hhi
  exact ⟨heq, hlo, hhi, hdlo, hdhi⟩

/-- Witness for C8: the bounds at initial = 4, final = 3, filled = 2
(quality score 68.75). -/
theorem quality_score_formula_bounds_witness :
    0 < 4 ∧ 3 ≤ 4 ∧ 2 ≤ 4 ∧
    (quality_score 4 3 2 =
      ((3 : ℚ) / 4 * 0.5 + (1 - (2 : ℚ) / 4) * 0.5) * 100 ∧
    0 ≤ quality_score 4 3 2 ∧
    quality_score 4 3 2 ≤ 100 ∧
    0 ≤ data_quality_score 4 3 2 ∧
    data_quality_score 4 3 2 ≤ 100) :=
  ⟨by decide, by decide, by decide,
   quality_score_formula_bounds 4 3 2 (by decide) (by decide) (by decide)⟩

/-! ## Pipeline invariants (claim C7) -/

/-- The (Ticker, Date) key of a row. -/
def rowKey (r : Row) : String × Nat := (r.Ticker, r.Date)

/-- The sort-key order on (Ticker, Date) pairs. -/
def kLe (p q : String × Nat) : Prop :=
  strLt p.1 q.1 = true ∨ (p.1 = q.1 ∧ p.2 ≤ q.2)

/-- The two invariants carried through the cleaning pipeline: pairwise
distinct (date, ticker) keys, and ascending (ticker, date) order. -/
def cleanInv (l : List Row) : Prop :=
  List.Pairwise (fun a b => rowKey a ≠ rowKey b) l ∧ List.Pairwise keyLe l

theorem cleanInv_sublist {l l' : List Row} (h : l.Sublist l')
    (hinv : cleanInv l') : cleanInv l :=
  ⟨List.Pairwise.sublist h hinv.1, List.Pairwise.sublist h hinv.2⟩

theorem pairwise_rowKey_transfer (R : String × Nat → String × Nat → Prop)
    {l l' : List Row} (h : l.map rowKey = l'.map rowKey) :
    List.Pairwise (fun a b => R (rowKey a) (rowKey b)) l →
    List.Pairwise (fun a b => R (rowKey a) (rowKey b)) l' := by
  intro hp
  have h1 : List.Pairwise R (l.map rowKey) :=
    (@List.pairwise_map Row (String × Nat) rowKey R l).mpr hp
  rw [h] at h1
  exact (@List.pairwise_map Row (String × Nat) rowKey R l').mp h1

theorem cleanInv_of_keymap {l l' : List Row}
    (h : l.map rowKey = l'.map rowKey) (hinv : cleanInv l) : cleanInv l' :=
  ⟨pairwise_rowKey_transfer (fun p q => p ≠ q) h hinv.1,
   pairwise_rowKey_transfer kLe h hinv.2⟩

theorem cleanInv_insertionSort {l : List Row}
    (h : List.Pairwise (fun a b => rowKey a ≠ rowKey b) l) :
    cleanInv (List.insertionSort keyLe l) :=
  ⟨((List.perm_insertionSort keyLe l).pairwise_iff
      fun hne => Ne.symm hne).mpr h,
   List.sorted_insertionSort keyLe l⟩

theorem rowKey_setCol (c : Col) (r : Row) (v : Option Int) :
    rowKey (setCol c r v) = rowKey r := by
  cases c <;> rfl

theorem rowKey_clampVolume (r : Row) : rowKey (clampVolume r) = rowKey r := by
  unfold clampVolume
  split <;> rfl

theorem rowKey_swapHighLow (r : Row) : rowKey (swapHighLow r) = rowKey r := by
  unfold swapHighLow
  split <;> rfl

theorem map_rowKey_fillPrices (l : List Row) :
    (fillPrices l).map rowKey = l.map rowKey :=
  fillPrices_map rowKey rowKey_setCol l

theorem map_rowKey_fillVolume (l : List Row) :
    (l.map fillVolumeRow).map rowKey = l.map rowKey := by
  rw [List.map_map]
  exact List.map_congr_left fun a _ => rfl

theorem map_rowKey_clamp (l : List Row) :
    (l.map clampVolume).map rowKey = l.map rowKey := by
  rw [List.map_map]
  exact List.map_congr_left fun a _ => rowKey_clampVolume a

theorem map_rowKey_swap (l : List Row) :
    (l.map swapHighLow).map rowKey = l.map rowKey := by
  rw [List.map_map]
  exact List.map_congr_left fun a _ => rowKey_swapHighLow a

/-- Both invariants hold after the full Row-level cleaning chain. -/
theorem clean_pipeline_inv (df : List Row) :
    cleanInv (validate_data (handle_missing_values
      (sort_data (remove_duplicates df)))) := by
  have h0 : List.Pairwise (fun a b => rowKey a ≠ rowKey b)
      (remove_duplicates df) := by
    refine (remove_duplicates_pairwise df).imp ?_
    intro a b hsk hkey
    rw [Prod.ext_iff] at hkey
    simp only [rowKey] at hkey
    have ht : sameKey a b = true := by
      simp only [sameKey, Bool.and_eq_true, decide_eq_true_eq]
      exact ⟨hkey.2.symm, hkey.1.symm⟩
    rw [hsk] at ht
    exact Bool.false_ne_true ht
  have h1 : cleanInv (sort_data (remove_duplicates df)) :=
    cleanInv_insertionSort h0
  have h2 : cleanInv (sortTD (sort_data (remove_duplicates df))) :=
    cleanInv_insertionSort h1.1
  have h3 : cleanInv (fillPrices (sortTD (sort_data
      (remove_duplicates df)))) :=
    cleanInv_of_keymap (map_rowKey_fillPrices _).symm h2
  have h4 : cleanInv ((fillPrices (sortTD (sort_data
      (remove_duplicates df)))).map fillVolumeRow) :=
    cleanInv_of_keymap (map_rowKey_fillVolume _).symm h3
  have h5 : cleanInv (handle_missing_values (sort_data
      (remove_duplicates df))) := by
    refine cleanInv_sublist ?_ h4
    exact List.filter_sublist _
  have h6 : cleanInv (negPriceFilter (handle_missing_values (sort_data
      (remove_duplicates df)))) :=
    cleanInv_sublist (negPriceFilter_sublist _) h5
  have h7 := cleanInv_of_keymap (map_rowKey_clamp _).symm h6
  have h8 := cleanInv_of_keymap (map_rowKey_swap _).symm h7
  rw [validate_data_eq]
  exact h8

/-- C7.  The output of the full cleaning pipeline — deduplicate, sort,
repair missing values, validate, enrich, in source order — has pairwise
distinct (date, ticker) pairs and is sorted ascending by (ticker, date):
every step after the sort preserves both uniqueness and order. -/
theorem clean_pipeline_unique_sorted (df : List Row) :
    List.Pairwise
      (fun a b : MetaRow => (a.Date, a.Ticker) ≠ (b.Date, b.Ticker))
      (add_metadata_columns (validate_data (handle_missing_values
        (sort_data (remove_duplicates df))))) ∧
    List.Pairwise
      (fun a b : MetaRow => strLt a.Ticker b.Ticker = true ∨
        (a.Ticker = b.Ticker ∧ a.Date ≤ b.Date))
      (add_metadata_columns (validate_data (handle_missing_values
        (sort_data (remove_duplicates df))))) := by
  have hinv := clean_pipeline_inv df
  constructor
  · unfold add_metadata_columns
    rw [List.pairwise_map]
    refine hinv.1.imp ?_
    intro a b hne hkey
    rw [Prod.ext_iff] at hkey
    apply hne
    rw [Prod.ext_iff]
    exact ⟨hkey.2, hkey.1⟩
  · unfold add_metadata_columns
    rw [List.pairwise_map]
    refine hinv.2.imp ?_
    intro a b hle
    exact hle

end Nifty
